/-
  Verification of the coins segmentation pipeline (src/app.py).

  The application loads a fixed 2-D grayscale image and runs:
    threshold = filters.threshold_otsu(img); mask = img > threshold;
    mask_clean = morphology.remove_small_objects(mask, min_size=min_obj) if min_obj > 0 else mask;
    mask_clean = morphology.remove_small_holes(mask_clean, area_threshold=min_hole) if min_hole > 0 else mask_clean;
    label_img = measure.label(mask_clean);            -- skimage default connectivity (8-connectivity in 2-D)
    props = measure.regionprops(label_img, intensity_image=img);
    overlay = color.label2rgb(label_img, image=img, bg_label=0, alpha=0.3); overlay_uint8 = (overlay*255).astype(uint8)

  This file embeds that pipeline shallowly: images are H×W grids of natural
  number intensities, masks are boolean grids, connected components are
  computed by an executable saturating expansion over Finsets, and the
  real-valued quantities (Otsu variances, intensity statistics, overlay
  blending) are computed exactly over the rationals, which models the
  floating-point arithmetic of the source exactly on these integer inputs.
-/
import Mathlib

namespace CoinsApp

/-- A pixel position: (row, column). -/
abbrev Pos := Nat × Nat

/-- The set of in-bounds positions of an H×W grid. -/
def gridSet (H W : Nat) : Finset Pos := Finset.range H ×ˢ Finset.range W

/-- The in-bounds positions where a boolean mask is true. -/
def maskSet (H W : Nat) (m : Nat → Nat → Bool) : Finset Pos :=
  (gridSet H W).filter (fun p => m p.1 p.2 = true)

/-- The 4-connectivity adjacency (orthogonal neighbours), the connectivity used by
`remove_small_objects` / `remove_small_holes` with their default `connectivity=1`. -/
def Adj4 (p q : Pos) : Prop :=
  (p.1 = q.1 ∧ (p.2 + 1 = q.2 ∨ q.2 + 1 = p.2)) ∨
  (p.2 = q.2 ∧ (p.1 + 1 = q.1 ∨ q.1 + 1 = p.1))

instance : DecidableRel Adj4 := fun p q => by
  unfold Adj4
  exact inferInstance

/-- The 8-connectivity adjacency (orthogonal and diagonal neighbours), the
connectivity used by `measure.label` with its default `connectivity=None`
(full connectivity of the 2-D input). -/
def Adj8 (p q : Pos) : Prop :=
  p ≠ q ∧ p.1 - q.1 ≤ 1 ∧ q.1 - p.1 ≤ 1 ∧ p.2 - q.2 ≤ 1 ∧ q.2 - p.2 ≤ 1

instance : DecidableRel Adj8 := fun p q => by
  unfold Adj8
  exact inferInstance

theorem adj4_symm (p q : Pos) (h : Adj4 p q) : Adj4 q p := by
  unfold Adj4 at h ⊢
  tauto

theorem adj8_symm (p q : Pos) (h : Adj8 p q) : Adj8 q p := by
  unfold Adj8 at h ⊢
  exact ⟨fun e => h.1 e.symm, h.2.2.1, h.2.1, h.2.2.2.2, h.2.2.2.1⟩

variable (A : Pos → Pos → Prop) [DecidableRel A]

/-- One step of component growth: keep `s` and add every point of the universe
`u` adjacent to a point of `s`. -/
def expand (u s : Finset Pos) : Finset Pos :=
  s ∪ u.filter (fun q => ∃ p ∈ s, A p q)

/-- All points of `u` reachable from `p` by adjacency steps inside `u`:
the expansion saturates after at most `u.card` useful steps. -/
def reach (u : Finset Pos) (p : Pos) : Finset Pos :=
  (expand A u)^[u.card + 1] {p}

theorem subset_expand (u s : Finset Pos) : s ⊆ expand A u s :=
  Finset.subset_union_left

theorem expand_mono (u : Finset Pos) {s t : Finset Pos} (h : s ⊆ t) :
    expand A u s ⊆ expand A u t := by
  intro x hx
  simp only [expand, Finset.mem_union, Finset.mem_filter] at hx ⊢
  rcases hx with hx | ⟨hxu, p, hp, hA⟩
  · exact Or.inl (h hx)
  · exact Or.inr ⟨hxu, p, h hp, hA⟩

theorem expand_subset_union (u s : Finset Pos) : expand A u s ⊆ s ∪ u :=
  Finset.union_subset_union_right (Finset.filter_subset _ _)

theorem iterate_expand_subset (u : Finset Pos) (p : Pos) (n : Nat) :
    (expand A u)^[n] {p} ⊆ insert p u := by
  induction n with
  | zero =>
      intro x hx
      simp only [Function.iterate_zero, id_eq, Finset.mem_singleton] at hx
      simp [hx]
  | succ n ih =>
      rw [Function.iterate_succ_apply']
      intro x hx
      rcases Finset.mem_union.mp (expand_subset_union A u _ hx) with h | h
      · exact ih h
      · exact Finset.mem_insert_of_mem h

theorem iterate_expand_succ_supset (u : Finset Pos) (s : Finset Pos) (n : Nat) :
    (expand A u)^[n] s ⊆ (expand A u)^[n + 1] s := by
  rw [Function.iterate_succ_apply']
  exact subset_expand A u _

theorem iterate_expand_le (u : Finset Pos) (s : Finset Pos) {m n : Nat} (h : m ≤ n) :
    (expand A u)^[m] s ⊆ (expand A u)^[n] s := by
  induction n with
  | zero =>
      have : m = 0 := Nat.le_zero.mp h
      simp [this]
  | succ n ih =>
      rcases Nat.lt_or_ge m (n + 1) with h' | h'
      · exact (ih (Nat.lt_succ_iff.mp h')).trans (iterate_expand_succ_supset A u s n)
      · have : m = n + 1 := Nat.le_antisymm h h'
        simp [this]

theorem iterate_expand_fixed_of_eq (u : Finset Pos) (s : Finset Pos)
    (h : expand A u s = s) (n : Nat) : (expand A u)^[n] s = s :=
  Function.iterate_fixed h n

/-- If all of the first `n` expansion steps from `{p}` are strict, the
`n`-th iterate has at least `n + 1` elements. -/
theorem iterate_expand_card_ge (u : Finset Pos) (p : Pos) (n : Nat)
    (h : ∀ k < n, (expand A u)^[k] {p} ≠ (expand A u)^[k + 1] {p}) :
    n + 1 ≤ ((expand A u)^[n] {p}).card := by
  induction n with
  | zero => simp
  | succ n ih =>
      have hstep : (expand A u)^[n] {p} ⊂ (expand A u)^[n + 1] {p} :=
        Finset.ssubset_iff_subset_ne.mpr
          ⟨iterate_expand_succ_supset A u {p} n, h n (Nat.lt_succ_self n)⟩
      have hcard := Finset.card_lt_card hstep
      have := ih (fun k hk => h k (Nat.lt_succ_of_lt hk))
      omega

/-- The expansion from `{p}` saturates within `u.card + 1` steps. -/
theorem expand_reach (u : Finset Pos) (p : Pos) :
    expand A u (reach A u p) = reach A u p := by
  by_cases hfix : ∃ k < u.card + 1, (expand A u)^[k] {p} = (expand A u)^[k + 1] {p}
  · obtain ⟨k, hk, heq⟩ := hfix
    have hfixk : expand A u ((expand A u)^[k] {p}) = (expand A u)^[k] {p} := by
      rw [← Function.iterate_succ_apply' (expand A u) k {p}]
      exact heq.symm
    have hN : reach A u p = (expand A u)^[k] {p} := by
      unfold reach
      have : u.card + 1 = (u.card + 1 - k) + k := by omega
      rw [this, Function.iterate_add_apply]
      exact iterate_expand_fixed_of_eq A u _ hfixk _
    rw [hN]
    exact hfixk
  · exfalso
    push_neg at hfix
    have hcard := iterate_expand_card_ge A u p (u.card + 1) (fun k hk => hfix k hk)
    have hsub := iterate_expand_subset A u p (u.card + 1)
    have hbound : ((expand A u)^[u.card + 1] {p}).card ≤ (insert p u).card :=
      Finset.card_le_card hsub
    have : (insert p u).card ≤ u.card + 1 := Finset.card_insert_le p u
    omega

theorem self_mem_reach (u : Finset Pos) (p : Pos) : p ∈ reach A u p := by
  have : ({p} : Finset Pos) ⊆ reach A u p :=
    iterate_expand_le A u {p} (Nat.zero_le (u.card + 1))
  exact this (Finset.mem_singleton_self p)

theorem reach_subset (u : Finset Pos) (p : Pos) : reach A u p ⊆ insert p u :=
  iterate_expand_subset A u p (u.card + 1)

theorem reach_subset_of_mem (u : Finset Pos) {p : Pos} (hp : p ∈ u) :
    reach A u p ⊆ u := by
  have := reach_subset A u p
  rwa [Finset.insert_eq_self.mpr hp] at this

theorem adj_mem_reach (u : Finset Pos) {p q r : Pos}
    (hq : q ∈ reach A u p) (hr : r ∈ u) (h : A q r) : r ∈ reach A u p := by
  have : r ∈ expand A u (reach A u p) := by
    simp only [expand, Finset.mem_union, Finset.mem_filter]
    exact Or.inr ⟨hr, q, hq, h⟩
  rwa [expand_reach] at this

theorem reach_trans (u : Finset Pos) {p q : Pos} (hq : q ∈ reach A u p) :
    reach A u q ⊆ reach A u p := by
  have key : ∀ n, (expand A u)^[n] {q} ⊆ reach A u p := by
    intro n
    induction n with
    | zero =>
        intro x hx
        simp only [Function.iterate_zero, id_eq, Finset.mem_singleton] at hx
        exact hx ▸ hq
    | succ n ih =>
        rw [Function.iterate_succ_apply']
        calc expand A u ((expand A u)^[n] {q})
            ⊆ expand A u (reach A u p) := expand_mono A u ih
          _ = reach A u p := expand_reach A u p
  exact key (u.card + 1)

theorem reach_symm (hsym : ∀ a b, A a b → A b a) (u : Finset Pos) {p q : Pos}
    (hp : p ∈ u) (hq : q ∈ reach A u p) : p ∈ reach A u q := by
  have key : ∀ n, ∀ x ∈ (expand A u)^[n] {p}, p ∈ reach A u x := by
    intro n
    induction n with
    | zero =>
        intro x hx
        simp only [Function.iterate_zero, id_eq, Finset.mem_singleton] at hx
        exact hx ▸ self_mem_reach A u p
    | succ n ih =>
        intro x hx
        rw [Function.iterate_succ_apply'] at hx
        simp only [expand, Finset.mem_union, Finset.mem_filter] at hx
        rcases hx with hx | ⟨hxu, r, hr, hA⟩
        · exact ih x hx
        · have hru : r ∈ u := by
            have := iterate_expand_subset A u p n hr
            rcases Finset.mem_insert.mp this with h | h
            · exact h ▸ hp
            · exact h
          have hrx : r ∈ reach A u x :=
            adj_mem_reach A u (self_mem_reach A u x) hru (hsym r x hA)
          exact reach_trans A u hrx (ih r hr)
  exact key (u.card + 1) q hq

theorem reach_mono_univ {u v : Finset Pos} (huv : u ⊆ v) (p : Pos) :
    reach A u p ⊆ reach A v p := by
  have key : ∀ n, (expand A u)^[n] {p} ⊆ reach A v p := by
    intro n
    induction n with
    | zero =>
        intro x hx
        simp only [Function.iterate_zero, id_eq, Finset.mem_singleton] at hx
        exact hx ▸ self_mem_reach A v p
    | succ n ih =>
        rw [Function.iterate_succ_apply']
        intro x hx
        simp only [expand, Finset.mem_union, Finset.mem_filter] at hx
        rcases hx with hx | ⟨hxu, r, hr, hA⟩
        · exact ih hx
        · exact adj_mem_reach A v (ih hr) (huv hxu) hA
  exact key (u.card + 1)

/-- If `q` is reachable from `p` (both inside `u`), their reachability sets
coincide. -/
theorem reach_eq_of_mem (hsym : ∀ a b, A a b → A b a) (u : Finset Pos) {p q : Pos}
    (hp : p ∈ u) (hq : q ∈ reach A u p) : reach A u q = reach A u p := by
  apply Finset.Subset.antisymm
  · exact reach_trans A u hq
  · exact reach_trans A u (reach_symm A hsym u hp hq)

/-- The connected component of `p` in mask `m` (restricted to the H×W grid),
under adjacency `A`. -/
def component (H W : Nat) (m : Nat → Nat → Bool) (p : Pos) : Finset Pos :=
  reach A (maskSet H W m) p

theorem self_mem_component (H W : Nat) (m : Nat → Nat → Bool) (p : Pos) :
    p ∈ component A H W m p :=
  self_mem_reach A (maskSet H W m) p

/-- Models `skimage.morphology.remove_small_objects(m, min_size)` (called at
src/app.py line 51 with its default `connectivity=1`, i.e. 4-connectivity):
a true pixel is kept exactly when its 4-connected component of true pixels
has at least `min_size` pixels. -/
def removeSmallObjects (H W : Nat) (m : Nat → Nat → Bool) (minSize : Nat) :
    Nat → Nat → Bool :=
  fun r c => m r c && decide (minSize ≤ (component Adj4 H W m (r, c)).card)

/-- Models `skimage.morphology.remove_small_holes(m, area_threshold)` (called at
src/app.py line 52 with its default `connectivity=1`): the library complements
the mask, applies `remove_small_objects` with `min_size = area_threshold + 1`
(its `area_threshold` is the largest hole that is still filled), and
complements again. -/
def removeSmallHoles (H W : Nat) (m : Nat → Nat → Bool) (t : Nat) :
    Nat → Nat → Bool :=
  fun r c => !(removeSmallObjects H W (fun i j => !(m i j)) (t + 1) r c)

/-- Step 2 of the pipeline, src/app.py line 51:
`mask_clean = morphology.remove_small_objects(mask, min_size=min_obj) if min_obj > 0 else mask`. -/
def step2 (H W : Nat) (m : Nat → Nat → Bool) (minObj : Nat) : Nat → Nat → Bool :=
  if 0 < minObj then removeSmallObjects H W m minObj else m

/-- Step 3 of the pipeline, src/app.py line 52:
`mask_clean = morphology.remove_small_holes(mask_clean, area_threshold=min_hole) if min_hole > 0 else mask_clean`. -/
def step3 (H W : Nat) (m : Nat → Nat → Bool) (minHole : Nat) : Nat → Nat → Bool :=
  if 0 < minHole then removeSmallHoles H W m minHole else m

/-- A grayscale image: height, width and a pixel intensity function
(uint8 samples modelled as natural numbers). -/
structure Image where
  H : Nat
  W : Nat
  pix : Nat → Nat → Nat

/-- Build an image from a list of rows (rows and cells beyond the given data
default to 0); used only to state concrete instances. -/
def imgOfList (l : List (List Nat)) : Image :=
  ⟨l.length, (l.headD []).length, fun r c => (l.getD r []).getD c 0⟩

/-- The list of all pixel intensities in row-major order. -/
def pixList (img : Image) : List Nat :=
  (List.range img.H).flatMap (fun r => (List.range img.W).map (fun c => img.pix r c))

/-- Whether every pixel equals the first pixel; `threshold_otsu` returns the
first pixel immediately in that case. -/
def isConstantImage (img : Image) : Bool :=
  (pixList img).all (fun v => v == (pixList img).headD 0)

/-- Number of pixels with intensity `v` (one histogram bin; for integer images
skimage's histogram has one bin per integer value between the min and the max). -/
def histCount (img : Image) (v : Nat) : Nat :=
  ((pixList img).filter (fun x => x == v)).length

/-- Minimum intensity in the image (0 for an empty image). -/
def minIntensity (img : Image) : Nat :=
  match pixList img with
  | [] => 0
  | x :: xs => xs.foldl Nat.min x

/-- Maximum intensity in the image (0 for an empty image). -/
def maxIntensity (img : Image) : Nat :=
  match pixList img with
  | [] => 0
  | x :: xs => xs.foldl Nat.max x

/-- Cumulative histogram `weight1[i]`: number of pixels in bins `minIntensity .. minIntensity + i`. -/
def otsuWeight1 (img : Image) (i : Nat) : Nat :=
  ((List.range (i + 1)).map (fun b => histCount img (minIntensity img + b))).sum

/-- Tail histogram `weight2[i+1]`: number of pixels in bins `minIntensity + i + 1 .. maxIntensity`. -/
def otsuWeight2 (img : Image) (i : Nat) : Nat :=
  ((List.range (maxIntensity img - minIntensity img - i)).map
    (fun b => histCount img (minIntensity img + i + 1 + b))).sum

/-- Sum of `count * intensity` over bins `minIntensity .. minIntensity + i`. -/
def otsuMoment1 (img : Image) (i : Nat) : Nat :=
  ((List.range (i + 1)).map
    (fun b => histCount img (minIntensity img + b) * (minIntensity img + b))).sum

/-- Sum of `count * intensity` over bins `minIntensity + i + 1 .. maxIntensity`. -/
def otsuMoment2 (img : Image) (i : Nat) : Nat :=
  ((List.range (maxIntensity img - minIntensity img - i)).map
    (fun b => histCount img (minIntensity img + i + 1 + b) *
      (minIntensity img + i + 1 + b))).sum

/-- Numerator of the between-class variance
`weight1[i] * weight2[i+1] * (mean1[i] - mean2[i+1])^2` as the exact fraction
`(moment1*weight2 - moment2*weight1)^2 / (weight1*weight2)`. -/
def otsuNum (img : Image) (i : Nat) : ℤ :=
  ((otsuMoment1 img i : ℤ) * (otsuWeight2 img i : ℤ) -
   (otsuMoment2 img i : ℤ) * (otsuWeight1 img i : ℤ)) ^ 2

/-- Denominator of the between-class variance as an exact fraction. -/
def otsuDen (img : Image) (i : Nat) : Nat :=
  otsuWeight1 img i * otsuWeight2 img i

/-- Exact comparison of the between-class variances of split `i` and split `j`
by cross-multiplication of the fractions `otsuNum/otsuDen` (both denominators
are positive for the splits that are ever compared, since the extreme bins are
non-empty). -/
def otsuVarLt (img : Image) (i j : Nat) : Bool :=
  decide (otsuNum img i * (otsuDen img j : ℤ) < otsuNum img j * (otsuDen img i : ℤ))

/-- Models `np.argmax` over the `n` between-class variances: the first index attaining
the maximum (a later index replaces the current best only when strictly
greater); `0` when `n = 0`. -/
def otsuArgmax (img : Image) (n : Nat) : Nat :=
  (List.range n).foldl (fun acc i => if otsuVarLt img acc i then i else acc) 0

/-- Models `skimage.filters.threshold_otsu(img)` (src/app.py line 47) for
integer images: if all pixels are equal, that value is returned directly;
otherwise the histogram has one bin per integer from the minimum to the
maximum intensity and the returned threshold is the bin (an integer) whose
split first maximizes the between-class variance. The library computes the
variances in floating point; here they are compared exactly as fractions. -/
def otsuThreshold (img : Image) : Nat :=
  if isConstantImage img then (pixList img).headD 0
  else minIntensity img +
    otsuArgmax img (maxIntensity img - minIntensity img)

/-- Step 1 of the pipeline, src/app.py line 48: `mask = img > threshold`
(strict comparison). -/
def binaryMask (img : Image) : Nat → Nat → Bool :=
  fun r c => decide (otsuThreshold img < img.pix r c)

/-- The cleaned mask: src/app.py lines 51-52. -/
def cleanedMask (img : Image) (minObj minHole : Nat) : Nat → Nat → Bool :=
  step3 img.H img.W (step2 img.H img.W (binaryMask img) minObj) minHole

/-- Row-major (raster) index of a position in a grid of width `W`. -/
def rasterIdx (W : Nat) (p : Pos) : Nat := p.1 * W + p.2

/-- The raster index of the first pixel (in raster-scan order) of the
8-connected component of `p` in mask `m`. -/
def repIdx (H W : Nat) (m : Nat → Nat → Bool) (p : Pos) : Nat :=
  (((component Adj8 H W m p).image (rasterIdx W)).min).untop' 0

/-- The raster indices of the first pixels of all components: one per
connected component of the mask. -/
def repsSet (H W : Nat) (m : Nat → Nat → Bool) : Finset Nat :=
  (maskSet H W m).image (repIdx H W m)

/-- The number of elements of `s` strictly below `x`: the rank of `x` in `s`. -/
def rankIn (s : Finset Nat) (x : Nat) : Nat :=
  (s.filter (fun y => y < x)).card

/-- Models `skimage.measure.label(mask)` (src/app.py line 55, default
connectivity, i.e. 8-connectivity in 2-D): background and out-of-bounds pixels
get 0; a foreground pixel gets `1 + (number of components whose first
raster-scan pixel precedes that of its own component)`, so labels are
consecutive starting at 1 in raster-scan order of first appearance. -/
def labelOf (H W : Nat) (m : Nat → Nat → Bool) (p : Pos) : Nat :=
  if p ∈ maskSet H W m then 1 + rankIn (repsSet H W m) (repIdx H W m p) else 0

/-- One row of the measurements table (src/app.py lines 59-74): the fields, in
the order the row dict is built (which is the dataframe's column order). -/
structure RegionRecord where
  label : Nat
  area : Nat
  bbox_r0 : Nat
  bbox_c0 : Nat
  bbox_r1 : Nat
  bbox_c1 : Nat
  mean : ℚ
  median : ℚ
  min : ℚ
  max : ℚ
deriving DecidableEq

/-- The pixels of the grid carrying a given label. -/
def regionPixels (H W : Nat) (lm : Pos → Nat) (l : Nat) : Finset Pos :=
  (gridSet H W).filter (fun p => lm p = l)

/-- Models `np.median` of a sorted list: middle element for odd length, average of the
two middle elements for even length. The source guards the empty case with
NaN (src/app.py line 62); that unreachable case is modelled as 0. -/
def medianOfSorted (l : List Nat) : ℚ :=
  if l.length % 2 = 1 then (l.getD (l.length / 2) 0 : ℚ)
  else ((l.getD (l.length / 2 - 1) 0 : ℚ) + (l.getD (l.length / 2) 0 : ℚ)) / 2

/-- The multiset of intensities of a region, sorted ascending. -/
def intensitiesSorted (img : Image) (pixels : Finset Pos) : List Nat :=
  (pixels.val.map (fun p => img.pix p.1 p.2)).sort (· ≤ ·)

/-- Models one row built from `measure.regionprops(label_img, intensity_image=img)`
(src/app.py lines 58-74): area is the pixel count of the label, the bounding
box is (min row, min col, max row + 1, max col + 1), and mean/median/min/max
are the intensity statistics of the original image over the region's pixels
(floats modelled exactly over ℚ). -/
def mkRecord (img : Image) (lm : Pos → Nat) (l : Nat) : RegionRecord :=
  let pixels := regionPixels img.H img.W lm l
  { label := l
  , area := pixels.card
  , bbox_r0 := ((pixels.image Prod.fst).min).untop' 0
  , bbox_c0 := ((pixels.image Prod.snd).min).untop' 0
  , bbox_r1 := ((pixels.image Prod.fst).max).unbot' 0 + 1
  , bbox_c1 := ((pixels.image Prod.snd).max).unbot' 0 + 1
  , mean := (pixels.sum (fun p => (img.pix p.1 p.2 : ℚ))) / (pixels.card : ℚ)
  , median := medianOfSorted (intensitiesSorted img pixels)
  , min := ((((pixels.image (fun p => img.pix p.1 p.2)).min).untop' 0 : Nat) : ℚ)
  , max := ((((pixels.image (fun p => img.pix p.1 p.2)).max).unbot' 0 : Nat) : ℚ) }

/-- The label map of the pipeline: src/app.py line 55. -/
def labelMap (img : Image) (minObj minHole : Nat) : Pos → Nat :=
  labelOf img.H img.W (cleanedMask img minObj minHole)

/-- The number of labeled regions. -/
def numRegions (img : Image) (minObj minHole : Nat) : Nat :=
  (repsSet img.H img.W (cleanedMask img minObj minHole)).card

/-- The region table (src/app.py lines 59-75): one row per label 1..K.
`regionprops` yields the regions in ascending label order, so the source's
`sort_values("label")` is the identity on it. -/
def regionTable (img : Image) (minObj minHole : Nat) : List RegionRecord :=
  (List.range (numRegions img minObj minHole)).map
    (fun i => mkRecord img (labelMap img minObj minHole) (i + 1))

/-- The ten default colors of `label2rgb` ('red', 'blue', 'yellow', 'magenta',
'green', 'indigo', 'darkorange', 'cyan', 'pink', 'yellowgreen') as exact RGB
triples in [0,1]. -/
def palette : List (ℚ × ℚ × ℚ) :=
  [ (1, 0, 0), (0, 0, 1), (1, 1, 0), (1, 0, 1), (0, 1/2, 0)
  , (75/255, 0, 130/255), (1, 140/255, 0), (0, 1, 1)
  , (1, 192/255, 203/255), (154/255, 205/255, 50/255) ]

/-- The color assigned to label `l ≥ 1`: the default color cycle indexed by
the label's rank among the labels (labels are 1..K here). -/
def labelColor (l : Nat) : ℚ × ℚ × ℚ :=
  palette.getD ((l - 1) % 10) (0, 0, 0)

/-- Scale to `(q * 255).astype(np.uint8)` for `q` in [0,1]: multiply and truncate. -/
def toU8 (q : ℚ) : Nat := (⌊q * 255⌋).toNat

/-- Models `color.label2rgb(label_img, image=img, bg_label=0, alpha=0.3)`
followed by `(overlay * 255).astype(np.uint8)` (src/app.py lines 78-79), with
the float arithmetic carried out exactly over ℚ: a background pixel (label 0)
keeps its grayscale value replicated over the three channels; a labeled pixel
blends the label's color with the grayscale value at opacity 0.3. This is an
idealization of the source's float64 path: there `img_as_float` multiplies by
the double nearest 1/255 and the final truncation can land one below the
grayscale value for some background intensities, so no theorem below rests on
the overlay's exact pixel values. -/
def overlayPixel (g : Nat) (l : Nat) : Nat × Nat × Nat :=
  if l = 0 then (toU8 ((g : ℚ) / 255), toU8 ((g : ℚ) / 255), toU8 ((g : ℚ) / 255))
  else
    let c := labelColor l
    let gq : ℚ := (g : ℚ) / 255
    ( toU8 (3/10 * c.1 + 7/10 * gq)
    , toU8 (3/10 * c.2.1 + 7/10 * gq)
    , toU8 (3/10 * c.2.2 + 7/10 * gq) )

/-- The rendered overlay of the pipeline: src/app.py lines 78-79. -/
def overlayU8 (img : Image) (minObj minHole : Nat) : Pos → Nat × Nat × Nat :=
  fun p => overlayPixel (img.pix p.1 p.2) (labelMap img minObj minHole p)

/-- The failure modes of the pipeline. `invalidInput` is modelled from the
spec: the source never constructs an error value itself (a malformed image
surfaces as a library exception) and spec §7 names that case InvalidInput.
`keyError` is the uncaught pandas exception of src/app.py line 75:
`pd.DataFrame([])` has no columns, so `.sort_values("label")` raises
KeyError('label') whenever the row list is empty. -/
inductive PipelineError where
  | invalidInput
  | keyError
deriving DecidableEq

/-- The bundle returned by `compute_pipeline` (src/app.py lines 81-88). -/
structure PipelineResult where
  threshold : Nat
  mask : Nat → Nat → Bool
  mask_clean : Nat → Nat → Bool
  label_img : Pos → Nat
  df : List RegionRecord
  overlay : Pos → Nat × Nat × Nat

/-- Models `pd.DataFrame(rows).sort_values("label").reset_index(drop=True)`
(src/app.py line 75). With no rows, `pd.DataFrame([])` has no columns and
`sort_values("label")` raises KeyError('label'); with at least one row the
columns exist and, the rows being already in ascending label order, the sort
is the identity. -/
def dataFrameSorted (rows : List RegionRecord) :
    Except PipelineError (List RegionRecord) :=
  match rows with
  | [] => Except.error PipelineError.keyError
  | r :: rest => Except.ok (r :: rest)

/-- Models `compute_pipeline(img, min_obj, min_hole)` (src/app.py lines 44-88):
an image with an empty dimension is the InvalidInput failure of spec §7; a
valid image whose region row list is empty fails with the KeyError raised by
the DataFrame sort at line 75; otherwise the full result bundle is produced. -/
def compute_pipeline (img : Image) (minObj minHole : Nat) :
    Except PipelineError PipelineResult :=
  if 0 < img.H ∧ 0 < img.W then
    match dataFrameSorted (regionTable img minObj minHole) with
    | Except.error e => Except.error e
    | Except.ok df =>
        Except.ok
          { threshold := otsuThreshold img
          , mask := binaryMask img
          , mask_clean := cleanedMask img minObj minHole
          , label_img := labelMap img minObj minHole
          , df := df
          , overlay := overlayU8 img minObj minHole }
  else Except.error PipelineError.invalidInput

/-- The number of foreground pixels of a mask (within the grid). -/
def foregroundCount (H W : Nat) (m : Nat → Nat → Bool) : Nat :=
  (maskSet H W m).card

/-- Whether a pixel set contains a pixel on the border of the H×W grid. -/
def touchesBorder (H W : Nat) (s : Finset Pos) : Prop :=
  ∃ p ∈ s, p.1 = 0 ∨ p.2 = 0 ∨ p.1 + 1 = H ∨ p.2 + 1 = W

instance (H W : Nat) (s : Finset Pos) : Decidable (touchesBorder H W s) := by
  unfold touchesBorder
  exact inferInstance

theorem removeSmallObjects_eq_true (H W : Nat) (m : Nat → Nat → Bool)
    (s r c : Nat) :
    removeSmallObjects H W m s r c = true ↔
      (m r c = true ∧ s ≤ (component Adj4 H W m (r, c)).card) := by
  simp [removeSmallObjects]

theorem removeSmallHoles_eq_true (H W : Nat) (m : Nat → Nat → Bool) (t r c : Nat) :
    removeSmallHoles H W m t r c = true ↔
      (m r c = true ∨
        (component Adj4 H W (fun i j => !(m i j)) (r, c)).card ≤ t) := by
  simp only [removeSmallHoles, Bool.not_eq_true', removeSmallObjects,
    Bool.and_eq_false_iff, Bool.not_eq_false, decide_eq_false_iff_not, Nat.not_le]
  constructor
  · rintro (h | h)
    · exact Or.inl (by simpa using h)
    · exact Or.inr (Nat.lt_succ_iff.mp h)
  · rintro (h | h)
    · exact Or.inl (by simpa using h)
    · exact Or.inr (Nat.lt_succ_iff.mpr h)

theorem step2_subset (H W : Nat) (m : Nat → Nat → Bool) (o r c : Nat)
    (h : step2 H W m o r c = true) : m r c = true := by
  by_cases ho : 0 < o
  · rw [step2, if_pos ho, removeSmallObjects_eq_true] at h
    exact h.1
  · rwa [step2, if_neg ho] at h

theorem step3_superset (H W : Nat) (m : Nat → Nat → Bool) (t r c : Nat)
    (h : m r c = true) : step3 H W m t r c = true := by
  by_cases ht : 0 < t
  · rw [step3, if_pos ht, removeSmallHoles_eq_true]
    exact Or.inl h
  · rwa [step3, if_neg ht]

theorem step2_antitone (H W : Nat) (m : Nat → Nat → Bool) {o o' : Nat}
    (hoo : o ≤ o') (r c : Nat) (h : step2 H W m o' r c = true) :
    step2 H W m o r c = true := by
  by_cases ho : 0 < o
  · have ho' : 0 < o' := Nat.lt_of_lt_of_le ho hoo
    rw [step2, if_pos ho', removeSmallObjects_eq_true] at h
    rw [step2, if_pos ho, removeSmallObjects_eq_true]
    exact ⟨h.1, Nat.le_trans hoo h.2⟩
  · rw [step2, if_neg ho]
    exact step2_subset H W m o' r c h

theorem maskSet_mono (H W : Nat) {m1 m2 : Nat → Nat → Bool}
    (h : ∀ r c, m1 r c = true → m2 r c = true) :
    maskSet H W m1 ⊆ maskSet H W m2 := by
  intro p hp
  simp only [maskSet, Finset.mem_filter] at hp ⊢
  exact ⟨hp.1, h _ _ hp.2⟩

theorem component_mono (H W : Nat) {m1 m2 : Nat → Nat → Bool}
    (h : ∀ r c, m1 r c = true → m2 r c = true) (p : Pos) :
    component A H W m1 p ⊆ component A H W m2 p :=
  reach_mono_univ A (maskSet_mono H W h) p

theorem step3_mono_mask (H W : Nat) {m1 m2 : Nat → Nat → Bool}
    (hm : ∀ r c, m1 r c = true → m2 r c = true) (t r c : Nat)
    (h : step3 H W m1 t r c = true) : step3 H W m2 t r c = true := by
  by_cases ht : 0 < t
  · rw [step3, if_pos ht, removeSmallHoles_eq_true] at h
    rw [step3, if_pos ht, removeSmallHoles_eq_true]
    rcases h with h | h
    · exact Or.inl (hm _ _ h)
    · by_cases h2 : m2 r c = true
      · exact Or.inl h2
      · refine Or.inr (Nat.le_trans (Finset.card_le_card ?_) h)
        refine component_mono Adj4 H W ?_ (r, c)
        intro i j hij
        simp only [Bool.not_eq_true'] at hij ⊢
        cases hmij : m1 i j with
        | false => rfl
        | true => exact absurd (hm i j hmij) (hij ▸ fun hx => Bool.noConfusion hx)
  · rw [step3, if_neg ht] at h
    rw [step3, if_neg ht]
    exact hm _ _ h

theorem step3_mono_t (H W : Nat) (m : Nat → Nat → Bool) {t t' : Nat}
    (htt : t ≤ t') (r c : Nat) (h : step3 H W m t r c = true) :
    step3 H W m t' r c = true := by
  by_cases ht : 0 < t
  · have ht' : 0 < t' := Nat.lt_of_lt_of_le ht htt
    rw [step3, if_pos ht, removeSmallHoles_eq_true] at h
    rw [step3, if_pos ht', removeSmallHoles_eq_true]
    rcases h with h | h
    · exact Or.inl h
    · exact Or.inr (Nat.le_trans h htt)
  · rw [step3, if_neg ht] at h
    exact step3_superset H W m t' r c h

/-- The CSV column order: the order in which src/app.py lines 63-74 build each
row's dict, which `pd.DataFrame` keeps as the column order and `to_csv` emits. -/
def csvHeader : List String :=
  ["label", "area", "bbox_r0", "bbox_c0", "bbox_r1", "bbox_c1",
   "mean", "median", "min", "max"]

/-- The values of one exported CSV row, in column order, at full precision. -/
def csvRow (r : RegionRecord) : List ℚ :=
  [(r.label : ℚ), (r.area : ℚ), (r.bbox_r0 : ℚ), (r.bbox_c0 : ℚ),
   (r.bbox_r1 : ℚ), (r.bbox_c1 : ℚ), r.mean, r.median, r.min, r.max]

/-- The CSV export (src/app.py line 122): header and full-precision rows of
`out["df"]`, which is never rounded. -/
def csvExport (t : List RegionRecord) : List String × List (List ℚ) :=
  (csvHeader, t.map csvRow)

/-- Rounding to 2 decimals (`df_display[col].round(2)`). -/
def round2 (q : ℚ) : ℚ := round (q * 100) / 100

/-- One row of the on-screen table (src/app.py lines 116-119): a copy of the
row with mean/median/min/max rounded to 2 decimals. -/
def displayRecord (r : RegionRecord) : RegionRecord :=
  { r with mean := round2 r.mean, median := round2 r.median
         , min := round2 r.min, max := round2 r.max }

/-- The on-screen table: `df_display = out["df"].copy()` with the four
intensity columns rounded (src/app.py lines 116-120). -/
def displayTable (t : List RegionRecord) : List RegionRecord :=
  t.map displayRecord

/-- What the presentation layer produces from the region table (src/app.py
lines 114-123): the rounded on-screen table and the full-precision CSV export. -/
def tableOutputs (t : List RegionRecord) :
    List RegionRecord × (List String × List (List ℚ)) :=
  (displayTable t, csvExport t)

/-- A 2×2 image whose binary mask is the two diagonal pixels. -/
def imgDiag : Image := imgOfList [[1, 0], [0, 1]]

/-- A 1×2 image whose binary mask is true-false: the single false pixel is a
border-touching background component of size 1. -/
def imgHole : Image := imgOfList [[1, 0]]

/-- A 1×1 all-zero image: all-background through the whole pipeline. -/
def imgZero : Image := ⟨1, 1, fun _ _ => 0⟩

/-- C3 (counterexample). On the 1×2 image [[1,0]] with `min_hole_size = 1` the
binary mask is [true,false]; the background component of pixel (0,1) touches
the grid border and its pixel count 1 is not `< min_hole_size = 1`, so the
claim says it must not be filled — yet the pipeline's hole-filling step sets
it to true, because `remove_small_holes` complements the mask and removes
complement objects of size `≤ area_threshold` without any border test. -/
theorem claim3_counterexample :
    binaryMask imgHole 0 1 = false ∧
    touchesBorder 1 2
      (component Adj4 1 2 (fun i j => !(binaryMask imgHole i j)) (0, 1)) ∧
    ¬ (component Adj4 1 2 (fun i j => !(binaryMask imgHole i j)) (0, 1)).card < 1 ∧
    cleanedMask imgHole 0 1 0 1 = true := by
  decide

/-- C3 (amended). For every mask and `min_hole_size > 0`, the small-hole
filling step sets to true exactly those pixels that are already true or whose
4-connected component of false pixels has pixel count at most `min_hole_size`
— regardless of whether the component touches the image border. -/
theorem claim3_hole_filling_characterization (H W : Nat) (m : Nat → Nat → Bool)
    (t : Nat) (ht : 0 < t) (r c : Nat) :
    step3 H W m t r c = true ↔
      (m r c = true ∨
        (component Adj4 H W (fun i j => !(m i j)) (r, c)).card ≤ t) := by
  rw [step3, if_pos ht]
  exact removeSmallHoles_eq_true H W m t r c

theorem claim3_hole_filling_characterization_witness :
    0 < 1 ∧
    (step3 1 2 (fun _ j => decide (j = 0)) 1 0 1 = true ↔
      ((fun _ j => decide (j = 0)) 0 1 = true ∨
        (component Adj4 1 2
          (fun i j => !((fun _ j => decide (j = 0)) i j)) (0, 1)).card ≤ 1)) :=
  ⟨by decide,
   claim3_hole_filling_characterization 1 2 (fun _ j => decide (j = 0)) 1
     (by decide) 0 1⟩

/-- C4. The pipeline is a pure function of (image, min_object_size,
min_hole_size): two invocations on the same inputs give bit-identical
threshold, binary mask, cleaned mask, label map, region table and overlay.
In this embedding each stage is a function of exactly those inputs (the
source's function body reads nothing else), so the outputs coincide
definitionally. -/
theorem claim4_deterministic (img : Image) (o h : Nat) :
    compute_pipeline img o h = compute_pipeline img o h ∧
    otsuThreshold img = otsuThreshold img ∧
    binaryMask img = binaryMask img ∧
    cleanedMask img o h = cleanedMask img o h ∧
    labelMap img o h = labelMap img o h ∧
    regionTable img o h = regionTable img o h ∧
    overlayU8 img o h = overlayU8 img o h :=
  ⟨rfl, rfl, rfl, rfl, rfl, rfl, rfl⟩

/-- C6. Each cleanup filter with parameter 0 is skipped and acts as the
identity: with `min_object_size = 0` step 2 returns its input mask unchanged,
and with `min_hole_size = 0` step 3 does. -/
theorem claim6_zero_is_noop (H W : Nat) (m : Nat → Nat → Bool) :
    step2 H W m 0 = m ∧ step3 H W m 0 = m :=
  ⟨rfl, rfl⟩

/-- C8. The binary mask is true at exactly the pixels whose intensity strictly
exceeds the Otsu threshold; a pixel equal to the threshold is background. -/
theorem claim8_mask_strict_threshold (img : Image) (r c : Nat) :
    binaryMask img r c = true ↔ otsuThreshold img < img.pix r c := by
  simp [binaryMask]

/-- C9. The CSV export carries the region table at full precision with the
columns in the order label, area, bbox_r0, bbox_c0, bbox_r1, bbox_c1, mean,
median, min, max, while the on-screen table is a copy with only
mean/median/min/max rounded to 2 decimals; the export never passes through
the rounding. -/
theorem claim9_csv_full_precision (t : List RegionRecord) :
    (tableOutputs t).2.1 =
      ["label", "area", "bbox_r0", "bbox_c0", "bbox_r1", "bbox_c1",
       "mean", "median", "min", "max"] ∧
    (tableOutputs t).2.2 = t.map (fun r =>
      [(r.label : ℚ), (r.area : ℚ), (r.bbox_r0 : ℚ), (r.bbox_c0 : ℚ),
       (r.bbox_r1 : ℚ), (r.bbox_c1 : ℚ), r.mean, r.median, r.min, r.max]) ∧
    (tableOutputs t).1 = t.map (fun r =>
      { r with mean := round2 r.mean, median := round2 r.median
             , min := round2 r.min, max := round2 r.max }) :=
  ⟨rfl, rfl, rfl⟩

/-- C10. The cleanup only moves pixels in the expected direction: small-object
removal never adds a foreground pixel (its output is a subset of its input
mask), and small-hole filling never removes one (its output is a superset of
its input mask). -/
theorem claim10_cleanup_directions (H W : Nat) (m m2 : Nat → Nat → Bool)
    (o h r c : Nat) :
    (step2 H W m o r c = true → m r c = true) ∧
    (m2 r c = true → step3 H W m2 h r c = true) :=
  ⟨step2_subset H W m o r c, step3_superset H W m2 h r c⟩

theorem claim10_cleanup_directions_witness :
    (fun _ _ => true : Nat → Nat → Bool) 0 0 = true ∧
    step3 1 1 (fun _ _ => true) 1 0 0 = true :=
  ⟨(claim10_cleanup_directions 1 1 (fun _ _ => true) (fun _ _ => true) 1 1 0 0).1
     (by decide),
   (claim10_cleanup_directions 1 1 (fun _ _ => true) (fun _ _ => true) 1 1 0 0).2
     (by decide)⟩

/-- C1 (code bug). The claim requires compute to succeed whenever the image
is valid, and in particular to return an empty region table on an
all-background result. On the all-zero 1-by-1 image with
`min_object_size = 3` (the spec's own all-zero scenario) the cleaned mask is
all-background and the region row list is empty, so
`pd.DataFrame([]).sort_values("label")` at src/app.py line 75 raises
KeyError('label'): compute fails exactly where the claim says it must not. -/
theorem claim1_code_bug_at_all_background :
    (∀ p ∈ gridSet imgZero.H imgZero.W, cleanedMask imgZero 3 0 p.1 p.2 = false) ∧
    regionTable imgZero 3 0 = [] ∧
    compute_pipeline imgZero 3 0 = Except.error PipelineError.keyError :=
  ⟨by decide, rfl, rfl⟩

/-- C5. Holding `min_hole_size` fixed, increasing `min_object_size` never
increases the cleaned mask's foreground pixel count; holding
`min_object_size` fixed, increasing `min_hole_size` never decreases it. -/
theorem claim5_monotone_cleanup (img : Image) {o o' h h' : Nat}
    (ho : o ≤ o') (hh : h ≤ h') :
    foregroundCount img.H img.W (cleanedMask img o' h) ≤
      foregroundCount img.H img.W (cleanedMask img o h) ∧
    foregroundCount img.H img.W (cleanedMask img o h) ≤
      foregroundCount img.H img.W (cleanedMask img o h') := by
  constructor
  · refine Finset.card_le_card (maskSet_mono img.H img.W ?_)
    intro r c hc
    exact step3_mono_mask img.H img.W
      (fun r c => step2_antitone img.H img.W (binaryMask img) ho r c) h r c hc
  · refine Finset.card_le_card (maskSet_mono img.H img.W ?_)
    intro r c hc
    exact step3_mono_t img.H img.W _ hh r c hc

theorem claim5_monotone_cleanup_witness :
    foregroundCount imgZero.H imgZero.W (cleanedMask imgZero 2 0) ≤
      foregroundCount imgZero.H imgZero.W (cleanedMask imgZero 0 0) ∧
    foregroundCount imgZero.H imgZero.W (cleanedMask imgZero 0 0) ≤
      foregroundCount imgZero.H imgZero.W (cleanedMask imgZero 0 2) :=
  claim5_monotone_cleanup imgZero (by decide) (by decide)

theorem component_subset_maskSet (H W : Nat) (m : Nat → Nat → Bool) {p : Pos}
    (hp : p ∈ maskSet H W m) : component A H W m p ⊆ maskSet H W m :=
  reach_subset_of_mem A _ hp

theorem component_eq_of_mem (hsym : ∀ a b, A a b → A b a) (H W : Nat)
    (m : Nat → Nat → Bool) {p q : Pos} (hp : p ∈ maskSet H W m)
    (hq : q ∈ component A H W m p) :
    component A H W m q = component A H W m p :=
  reach_eq_of_mem A hsym _ hp hq

theorem repIdx_attained (H W : Nat) (m : Nat → Nat → Bool) (p : Pos) :
    ∃ r ∈ component Adj8 H W m p, rasterIdx W r = repIdx H W m p := by
  have hmem : rasterIdx W p ∈ (component Adj8 H W m p).image (rasterIdx W) :=
    Finset.mem_image_of_mem _ (self_mem_component Adj8 H W m p)
  obtain ⟨b, hb⟩ := Finset.min_of_mem hmem
  have hbmem := Finset.mem_of_min hb
  obtain ⟨r, hr, hrb⟩ := Finset.mem_image.mp hbmem
  refine ⟨r, hr, ?_⟩
  rw [repIdx, hb, hrb]
  rfl

theorem repIdx_le (H W : Nat) (m : Nat → Nat → Bool) {p q : Pos}
    (hq : q ∈ component Adj8 H W m p) :
    repIdx H W m p ≤ rasterIdx W q := by
  have hmem : rasterIdx W q ∈ (component Adj8 H W m p).image (rasterIdx W) :=
    Finset.mem_image_of_mem _ hq
  obtain ⟨b, hb⟩ := Finset.min_of_mem hmem
  have hle := Finset.min_le hmem
  rw [hb] at hle
  rw [repIdx, hb]
  exact_mod_cast hle

theorem rasterIdx_injOn (H W : Nat) {p q : Pos} (hp : p ∈ gridSet H W)
    (hq : q ∈ gridSet H W) (h : rasterIdx W p = rasterIdx W q) : p = q := by
  rw [gridSet, Finset.mem_product, Finset.mem_range, Finset.mem_range] at hp hq
  rw [rasterIdx, rasterIdx] at h
  have hW : 0 < W := Nat.lt_of_le_of_lt (Nat.zero_le _) hp.2
  have h2 : p.2 = q.2 := by
    have e1 : (p.1 * W + p.2) % W = p.2 := by
      rw [Nat.mul_comm, Nat.mul_add_mod]
      exact Nat.mod_eq_of_lt hp.2
    have e2 : (q.1 * W + q.2) % W = q.2 := by
      rw [Nat.mul_comm, Nat.mul_add_mod]
      exact Nat.mod_eq_of_lt hq.2
    rw [← e1, ← e2, h]
  have h1 : p.1 = q.1 := by
    have hmul : p.1 * W = q.1 * W := by omega
    exact Nat.eq_of_mul_eq_mul_right hW hmul
  exact Prod.ext h1 h2

theorem component_eq_of_repIdx_eq (H W : Nat) (m : Nat → Nat → Bool) {p q : Pos}
    (hp : p ∈ maskSet H W m) (hq : q ∈ maskSet H W m)
    (h : repIdx H W m p = repIdx H W m q) :
    component Adj8 H W m p = component Adj8 H W m q := by
  obtain ⟨rp, hrp, hrpi⟩ := repIdx_attained H W m p
  obtain ⟨rq, hrq, hrqi⟩ := repIdx_attained H W m q
  have hgrid : maskSet H W m ⊆ gridSet H W := Finset.filter_subset _ _
  have hr : rp = rq :=
    rasterIdx_injOn H W
      (hgrid (component_subset_maskSet Adj8 H W m hp hrp))
      (hgrid (component_subset_maskSet Adj8 H W m hq hrq))
      (by rw [hrpi, hrqi, h])
  calc component Adj8 H W m p
      = component Adj8 H W m rp :=
        (component_eq_of_mem Adj8 adj8_symm H W m hp hrp).symm
    _ = component Adj8 H W m rq := by rw [hr]
    _ = component Adj8 H W m q :=
        component_eq_of_mem Adj8 adj8_symm H W m hq hrq

theorem rankIn_lt_of_lt (s : Finset Nat) {x y : Nat} (hx : x ∈ s) (hxy : x < y) :
    rankIn s x < rankIn s y := by
  apply Finset.card_lt_card
  rw [Finset.ssubset_iff_of_subset]
  · exact ⟨x, Finset.mem_filter.mpr ⟨hx, hxy⟩,
      fun hmem => absurd (Finset.mem_filter.mp hmem).2 (Nat.lt_irrefl x)⟩
  · intro z hz
    rw [Finset.mem_filter] at hz ⊢
    exact ⟨hz.1, Nat.lt_trans hz.2 hxy⟩

theorem rankIn_injOn (s : Finset Nat) {x y : Nat} (hx : x ∈ s) (hy : y ∈ s)
    (h : rankIn s x = rankIn s y) : x = y := by
  rcases Nat.lt_trichotomy x y with hlt | he | hlt
  · exact absurd h (Nat.ne_of_lt (rankIn_lt_of_lt s hx hlt))
  · exact he
  · exact absurd h.symm (Nat.ne_of_lt (rankIn_lt_of_lt s hy hlt))

/-- C2 (counterexample). On the 2×2 image [[1,0],[0,1]] with both parameters 0
the cleaned mask is exactly the two diagonal pixels; the pipeline's labeling
step gives both the same positive label 1, although they are not connected
under 4-connectivity — because `measure.label` is called with skimage's
default connectivity, which is 8-connectivity for a 2-D input. -/
theorem claim2_counterexample :
    cleanedMask imgDiag 0 0 0 0 = true ∧
    cleanedMask imgDiag 0 0 1 1 = true ∧
    labelMap imgDiag 0 0 (0, 0) = 1 ∧
    labelMap imgDiag 0 0 (1, 1) = 1 ∧
    (1, 1) ∉ component Adj4 2 2 (cleanedMask imgDiag 0 0) (0, 0) := by
  decide

/-- C2 (amended). The labeling step assigns, to the true pixels of the cleaned
mask, positive labels (in deterministic raster-scan order starting at 1, with
0 reserved for background): two true pixels receive the same (positive) label
exactly when they are connected under 8-connectivity — skimage's default
connectivity for 2-D `measure.label`, not the 4-connectivity stated in the
spec. -/
theorem claim2_labels_iff_connected (H W : Nat) (m : Nat → Nat → Bool)
    (p q : Pos) (hp : p ∈ maskSet H W m) (hq : q ∈ maskSet H W m) :
    0 < labelOf H W m p ∧
    (labelOf H W m p = labelOf H W m q ↔ q ∈ component Adj8 H W m p) := by
  refine ⟨by rw [labelOf, if_pos hp]; omega, ?_, ?_⟩
  · intro hl
    rw [labelOf, if_pos hp, labelOf, if_pos hq] at hl
    have hrank : rankIn (repsSet H W m) (repIdx H W m p) =
        rankIn (repsSet H W m) (repIdx H W m q) := by omega
    have hrep : repIdx H W m p = repIdx H W m q :=
      rankIn_injOn _ (Finset.mem_image_of_mem _ hp)
        (Finset.mem_image_of_mem _ hq) hrank
    have hcomp := component_eq_of_repIdx_eq H W m hp hq hrep
    exact hcomp ▸ self_mem_component Adj8 H W m q
  · intro hq'
    have hcomp : component Adj8 H W m q = component Adj8 H W m p :=
      component_eq_of_mem Adj8 adj8_symm H W m hp hq'
    rw [labelOf, if_pos hp, labelOf, if_pos hq, repIdx, repIdx, hcomp]

theorem claim2_labels_iff_connected_witness :
    0 < labelOf 2 2 (fun r c => r == c) (0, 0) ∧
    (labelOf 2 2 (fun r c => r == c) (0, 0) =
        labelOf 2 2 (fun r c => r == c) (1, 1) ↔
      (1, 1) ∈ component Adj8 2 2 (fun r c => r == c) (0, 0)) :=
  claim2_labels_iff_connected 2 2 (fun r c => r == c) (0, 0) (1, 1)
    (by decide) (by decide)

theorem rankIn_lt_card (s : Finset Nat) {x : Nat} (hx : x ∈ s) :
    rankIn s x < s.card := by
  have hsub : s.filter (fun y => y < x) ⊆ s.erase x := by
    intro z hz
    rw [Finset.mem_filter] at hz
    exact Finset.mem_erase.mpr ⟨Nat.ne_of_lt hz.2, hz.1⟩
  calc rankIn s x ≤ (s.erase x).card := Finset.card_le_card hsub
    _ < s.card := Finset.card_erase_lt_of_mem hx

theorem rankIn_image_eq_range (s : Finset Nat) :
    s.image (rankIn s) = Finset.range s.card := by
  apply Finset.eq_of_subset_of_card_le
  · intro x hx
    obtain ⟨y, hy, rfl⟩ := Finset.mem_image.mp hx
    exact Finset.mem_range.mpr (rankIn_lt_card s hy)
  · rw [Finset.card_range, Finset.card_image_of_injOn]
    exact fun x hx y hy h =>
      rankIn_injOn s (by simpa using hx) (by simpa using hy) h

/-- Every label in 1..numRegions is attained by some mask pixel. -/
theorem exists_label (H W : Nat) (m : Nat → Nat → Bool) {i : Nat}
    (hi : i < (repsSet H W m).card) :
    ∃ p ∈ maskSet H W m, labelOf H W m p = i + 1 := by
  have hmem : i ∈ Finset.range (repsSet H W m).card := Finset.mem_range.mpr hi
  rw [← rankIn_image_eq_range] at hmem
  obtain ⟨x, hx, hxi⟩ := Finset.mem_image.mp hmem
  obtain ⟨p, hp, hpx⟩ := Finset.mem_image.mp hx
  refine ⟨p, hp, ?_⟩
  rw [labelOf, if_pos hp, hpx, hxi, Nat.add_comm]

theorem untop'_min_le (s : Finset Nat) {a : Nat} (ha : a ∈ s) :
    (s.min).untop' 0 ≤ a := by
  obtain ⟨b, hb⟩ := Finset.min_of_mem ha
  have hle := Finset.min_le ha
  rw [hb] at hle
  rw [hb]
  exact_mod_cast hle

theorem untop'_min_mem (s : Finset Nat) (h : s.Nonempty) :
    (s.min).untop' 0 ∈ s := by
  obtain ⟨a, ha⟩ := h
  obtain ⟨b, hb⟩ := Finset.min_of_mem ha
  rw [hb]
  exact Finset.mem_of_min hb

theorem le_unbot'_max (s : Finset Nat) {a : Nat} (ha : a ∈ s) :
    a ≤ (s.max).unbot' 0 := by
  obtain ⟨b, hb⟩ := Finset.max_of_mem ha
  have hle := Finset.le_max ha
  rw [hb] at hle
  rw [hb]
  exact_mod_cast hle

theorem unbot'_max_mem (s : Finset Nat) (h : s.Nonempty) :
    (s.max).unbot' 0 ∈ s := by
  obtain ⟨a, ha⟩ := h
  obtain ⟨b, hb⟩ := Finset.max_of_mem ha
  rw [hb]
  exact Finset.mem_of_max hb

/-- The distinct positive values occurring in the label map, over the grid. -/
def positiveLabels (img : Image) (o h : Nat) : Finset Nat :=
  ((gridSet img.H img.W).image (labelMap img o h)).filter (fun l => 0 < l)

theorem positiveLabels_eq (img : Image) (o h : Nat) :
    positiveLabels img o h =
      (maskSet img.H img.W (cleanedMask img o h)).image (labelMap img o h) := by
  ext l
  simp only [positiveLabels, Finset.mem_filter, Finset.mem_image]
  constructor
  · rintro ⟨⟨p, hp, rfl⟩, hpos⟩
    by_cases hm : p ∈ maskSet img.H img.W (cleanedMask img o h)
    · exact ⟨p, hm, rfl⟩
    · rw [labelMap, labelOf, if_neg hm] at hpos
      exact absurd hpos (Nat.lt_irrefl 0)
  · rintro ⟨p, hp, rfl⟩
    have hgrid : p ∈ gridSet img.H img.W := Finset.filter_subset _ _ hp
    refine ⟨⟨p, hgrid, rfl⟩, ?_⟩
    rw [labelMap, labelOf, if_pos hp]
    omega

theorem positiveLabels_card (img : Image) (o h : Nat) :
    (positiveLabels img o h).card = numRegions img o h := by
  rw [positiveLabels_eq]
  have himg : (maskSet img.H img.W (cleanedMask img o h)).image (labelMap img o h) =
      (repsSet img.H img.W (cleanedMask img o h)).image
        (fun x => 1 + rankIn (repsSet img.H img.W (cleanedMask img o h)) x) := by
    rw [repsSet, Finset.image_image]
    apply Finset.image_congr
    intro p hp
    rw [Finset.mem_coe] at hp
    show labelMap img o h p = _
    rw [labelMap, labelOf, if_pos hp]
    rfl
  rw [himg, Finset.card_image_of_injOn, numRegions]
  intro x hx y hy hxy
  have hxy2 : 1 + rankIn (repsSet img.H img.W (cleanedMask img o h)) x =
      1 + rankIn (repsSet img.H img.W (cleanedMask img o h)) y := hxy
  exact rankIn_injOn _ (by simpa using hx) (by simpa using hy) (by omega)

/-- C7. The number of distinct positive label values equals the number of rows
of the region table; each row's area is the pixel count of its label; and each
row's bounding box (min row, min col, max row + 1, max col + 1) contains every
pixel of its label and is contained in every box that contains them all. -/
theorem claim7_label_consistency (img : Image) (o h : Nat) :
    (positiveLabels img o h).card = (regionTable img o h).length ∧
    (∀ rec ∈ regionTable img o h,
      rec.area =
        (regionPixels img.H img.W (labelMap img o h) rec.label).card ∧
      (∀ p ∈ regionPixels img.H img.W (labelMap img o h) rec.label,
        rec.bbox_r0 ≤ p.1 ∧ p.1 < rec.bbox_r1 ∧
        rec.bbox_c0 ≤ p.2 ∧ p.2 < rec.bbox_c1) ∧
      (∀ a b a2 b2,
        (∀ p ∈ regionPixels img.H img.W (labelMap img o h) rec.label,
          a ≤ p.1 ∧ p.1 < a2 ∧ b ≤ p.2 ∧ p.2 < b2) →
        a ≤ rec.bbox_r0 ∧ rec.bbox_r1 ≤ a2 ∧
        b ≤ rec.bbox_c0 ∧ rec.bbox_c1 ≤ b2)) := by
  constructor
  · rw [positiveLabels_card, regionTable, List.length_map, List.length_range]
  · intro rec hrec
    rw [regionTable] at hrec
    obtain ⟨i, hi, rfl⟩ := List.mem_map.mp hrec
    rw [List.mem_range] at hi
    have hlabel : (mkRecord img (labelMap img o h) (i + 1)).label = i + 1 := rfl
    obtain ⟨p0, hp0m, hp0l⟩ :=
      exists_label img.H img.W (cleanedMask img o h) hi
    have hp0 : p0 ∈ regionPixels img.H img.W (labelMap img o h) (i + 1) := by
      rw [regionPixels, Finset.mem_filter]
      exact ⟨Finset.filter_subset _ _ hp0m, hp0l⟩
    have hne : (regionPixels img.H img.W (labelMap img o h) (i + 1)).Nonempty :=
      ⟨p0, hp0⟩
    rw [hlabel]
    refine ⟨rfl, ?_, ?_⟩
    · intro p hp
      refine ⟨untop'_min_le _ (Finset.mem_image_of_mem Prod.fst hp),
        Nat.lt_succ_of_le (le_unbot'_max _ (Finset.mem_image_of_mem Prod.fst hp)),
        untop'_min_le _ (Finset.mem_image_of_mem Prod.snd hp),
        Nat.lt_succ_of_le (le_unbot'_max _ (Finset.mem_image_of_mem Prod.snd hp))⟩
    · intro a b a2 b2 hbox
      have hner : ((regionPixels img.H img.W (labelMap img o h) (i + 1)).image
          Prod.fst).Nonempty := hne.image _
      have hnec : ((regionPixels img.H img.W (labelMap img o h) (i + 1)).image
          Prod.snd).Nonempty := hne.image _
      obtain ⟨pr0, hpr0, hpr0e⟩ := Finset.mem_image.mp (untop'_min_mem _ hner)
      obtain ⟨pr1, hpr1, hpr1e⟩ := Finset.mem_image.mp (unbot'_max_mem _ hner)
      obtain ⟨pc0, hpc0, hpc0e⟩ := Finset.mem_image.mp (untop'_min_mem _ hnec)
      obtain ⟨pc1, hpc1, hpc1e⟩ := Finset.mem_image.mp (unbot'_max_mem _ hnec)
      have er0 : (mkRecord img (labelMap img o h) (i + 1)).bbox_r0 =
          (((regionPixels img.H img.W (labelMap img o h) (i + 1)).image
            Prod.fst).min).untop' 0 := rfl
      have er1 : (mkRecord img (labelMap img o h) (i + 1)).bbox_r1 =
          (((regionPixels img.H img.W (labelMap img o h) (i + 1)).image
            Prod.fst).max).unbot' 0 + 1 := rfl
      have ec0 : (mkRecord img (labelMap img o h) (i + 1)).bbox_c0 =
          (((regionPixels img.H img.W (labelMap img o h) (i + 1)).image
            Prod.snd).min).untop' 0 := rfl
      have ec1 : (mkRecord img (labelMap img o h) (i + 1)).bbox_c1 =
          (((regionPixels img.H img.W (labelMap img o h) (i + 1)).image
            Prod.snd).max).unbot' 0 + 1 := rfl
      rw [er0, er1, ec0, ec1]
      refine ⟨?_, ?_, ?_, ?_⟩
      · rw [← hpr0e]
        exact (hbox pr0 hpr0).1
      · have := (hbox pr1 hpr1).2.1
        rw [hpr1e] at this
        exact Nat.succ_le_of_lt this
      · rw [← hpc0e]
        exact (hbox pc0 hpc0).2.2.1
      · have := (hbox pc1 hpc1).2.2.2
        rw [hpc1e] at this
        exact Nat.succ_le_of_lt this

theorem claim7_label_consistency_witness :
    (positiveLabels imgDiag 0 0).card = (regionTable imgDiag 0 0).length ∧
    (∀ rec ∈ regionTable imgDiag 0 0,
      rec.area =
        (regionPixels imgDiag.H imgDiag.W (labelMap imgDiag 0 0) rec.label).card ∧
      (∀ p ∈ regionPixels imgDiag.H imgDiag.W (labelMap imgDiag 0 0) rec.label,
        rec.bbox_r0 ≤ p.1 ∧ p.1 < rec.bbox_r1 ∧
        rec.bbox_c0 ≤ p.2 ∧ p.2 < rec.bbox_c1) ∧
      (∀ a b a2 b2,
        (∀ p ∈ regionPixels imgDiag.H imgDiag.W (labelMap imgDiag 0 0) rec.label,
          a ≤ p.1 ∧ p.1 < a2 ∧ b ≤ p.2 ∧ p.2 < b2) →
        a ≤ rec.bbox_r0 ∧ rec.bbox_r1 ≤ a2 ∧
        b ≤ rec.bbox_c0 ∧ rec.bbox_c1 ≤ b2)) :=
  claim7_label_consistency imgDiag 0 0

end CoinsApp
